import Mathlib

/-!
Verification of the Oware Abapa prototype engine (game rules, tables,
search and notation conversion) against its natural-language specification.

The Python sources are shallowly embedded:
* a board is a `List Nat` of 14 entries (houses 0..11, stores 12, 13);
* a turn is an `Int` (`1` = SOUTH, `-1` = NORTH);
* the precomputed tables `SEED_DRILL`, `HARVESTER` and `REAPER` of
  `util/machinery.py` are rebuilt by the same construction;
* fallible code (`IndexError` / `NameError` / `ValueError`) is modelled
  with `Option`.
-/

namespace Oware

/-- `SOUTH = 1` in `oware.py`. -/
def SOUTH : Int := 1

/-- `NORTH = -1` in `oware.py`. -/
def NORTH : Int := -1

/-- Number of occurrences of `x` in a list (Python `tuple.count` style),
used to reason about how often a house is sown. -/
def cnt (x : Nat) : List Nat → Nat
  | [] => 0
  | y :: ys => (if y = x then 1 else 0) + cnt x ys

/-- Python slice `l[a:b]` for lists of naturals. -/
def slice (l : List Nat) (a b : Nat) : List Nat := (l.drop a).take (b - a)

/-- One cyclic pass over the 11 houses other than `move`, in sowing order:
`range(move+1, 12) + range(0, move)` from `machinery.py`. -/
def baseCycle (move : Nat) : List Nat :=
  List.range' (move + 1) (12 - (move + 1)) ++ List.range move

/-- `SEED_DRILL[move]`: the first 48 pits sown from house `move`, skipping
`move` itself (`tuple((range(move+1,12)+range(0,move)) * 5)[:48]`). -/
def seedDrill (move : Nat) : List Nat :=
  ((List.replicate 5 (baseCycle move)).flatten).take 48

/-- `SEED_DRILL[move][i]` (with an irrelevant default out of range). -/
def sdGet (move i : Nat) : Nat := (seedDrill move).getD i 0

/-- `HARVESTER[last]`: the gather chain walking back from the landing
house to its row boundary (`machinery.py`). -/
def harvester (last : Nat) : List Nat :=
  if last < 6 then (List.range (last + 1)).reverse
  else (List.range' 6 (last - 5)).reverse

/-- All selections of `length` values drawn from `items`
(`machinery.xselections`). -/
def xselections (items : List Nat) : Nat → List (List Nat)
  | 0 => [[]]
  | n + 1 =>
    ((items.map (fun a => (xselections items n).map (fun sel => a :: sel))).flatten)

/-- `machinery.xboard_positions`: the selections padded with zeros to six
entries. -/
def xboard_positions (items : List Nat) (len : Nat) : List (List Nat) :=
  (xselections items len).map (fun c => c ++ List.replicate (6 - len) 0)

/-- The local variable `n` of the `REAPER` construction in
`machinery.py`: the landing house of a sow of `seeds` seeds from house
`move`, reduced to its index within its own row. -/
def reaperLoc (move seeds : Nat) : Nat :=
  if 5 < sdGet move (seeds - 1) then sdGet move (seeds - 1) - 6
  else sdGet move (seeds - 1)

/-- `REAPER[move][seeds]` of `machinery.py`: for a sow of `seeds` seeds
from house `move` that lands in the opponent's row, the landing house and
the list of opponent rows that would make the capture a Grand Slam.
`none` models absence from the Python dict. -/
def reaperEntry (move seeds : Nat) : Option (Nat × List (List Nat)) :=
  if 1 ≤ seeds ∧ seeds ≤ 33 then
    if (decide (sdGet move (seeds - 1) < 6)) = (decide (5 < move)) then
      if seeds < 12 then
        some (sdGet move (seeds - 1), xboard_positions [1, 2] (reaperLoc move seeds + 1))
      else if sdGet move (seeds - 1) = 11 ∨ sdGet move (seeds - 1) = 5 then
        if seeds < 23 then
          some (sdGet move (seeds - 1), xboard_positions [0, 1] (reaperLoc move seeds + 1))
        else some (sdGet move (seeds - 1), [List.replicate 6 0])
      else some (sdGet move (seeds - 1), [])
    else none
  else none

/-- `Oware.get_initial_board`: `(4,) * 12 + (0, 0)`. -/
def get_initial_board : List Nat := [4, 4, 4, 4, 4, 4, 4, 4, 4, 4, 4, 4, 0, 0]

/-- `Oware.is_capture`: true iff the move performs at least one capture. -/
def is_capture (board : List Nat) (move : Nat) : Bool :=
  match reaperEntry move (board.getD move 0) with
  | none => false
  | some (last, posns) =>
    if 2 < board.getD last 0 then false
    else if xor (decide (board.getD last 0 = 0)) (decide (board.getD move 0 < 12))
        || (decide (11 < board.getD move 0) && decide (board.getD move 0 < 23)
            && decide (board.getD last 0 = 1)) then
      if move < 6 then
        if slice board 6 12 ∈ posns then false else true
      else
        if slice board 0 6 ∈ posns then false else true
    else false

/-- `Oware.is_capture` with the second disjunct of the capture-disposition
expression (`11 < board[move] < 23 and board[last] == 1`) removed, as the
spec suggests; used to compare against the real `is_capture`. -/
def is_capture_dropSecond (board : List Nat) (move : Nat) : Bool :=
  match reaperEntry move (board.getD move 0) with
  | none => false
  | some (last, posns) =>
    if 2 < board.getD last 0 then false
    else if xor (decide (board.getD last 0 = 0)) (decide (board.getD move 0 < 12)) then
      if move < 6 then
        if slice board 6 12 ∈ posns then false else true
      else
        if slice board 0 6 ∈ posns then false else true
    else false

/-- The sowing loop of `Oware.compute_board`: add one seed to each house
of `houses` in order. -/
def sowList (board : List Nat) (houses : List Nat) : List Nat :=
  houses.foldl (fun bc h => bc.set h (bc.getD h 0 + 1)) board

/-- The gather loop of `Oware.compute_board`: walk the harvest chain,
moving each pit holding 2 or 3 seeds into `store`, stopping at the first
pit that does not. -/
def harvestLoop (store : Nat) : List Nat → List Nat → List Nat
  | [], bc => bc
  | house :: chain, bc =>
    if 1 < bc.getD house 0 ∧ bc.getD house 0 < 4 then
      harvestLoop store chain
        ((bc.set store (bc.getD store 0 + bc.getD house 0)).set house 0)
    else bc

/-- `Oware.compute_board`: execute a move.  When `board[move] = 0` the
Python sowing loop runs zero iterations and the subsequent read of the
loop variable `house` is a `NameError`; this is modelled by `none`. -/
def compute_board (board : List Nat) (move : Nat) : Option (List Nat) :=
  match ((seedDrill move).take (board.getD move 0)).getLast? with
  | none => none
  | some house =>
    let nb := sowList (board.set move 0) ((seedDrill move).take (board.getD move 0))
    if 1 < nb.getD house 0 ∧ nb.getD house 0 < 4 then
      if move < 6 ∧ 5 < house then
        let bc := harvestLoop 12 (harvester house) nb
        if slice bc 6 12 ≠ List.replicate 6 0 then some bc else some nb
      else if 5 < move ∧ house < 6 then
        let bc := harvestLoop 13 (harvester house) nb
        if slice bc 0 6 ≠ List.replicate 6 0 then some bc else some nb
      else some nb
    else some nb

/-- `Oware.get_final_board`: endgame normalization. -/
def get_final_board (board : List Nat) : List Nat :=
  if 24 < board.getD 12 0 ∨ 24 < board.getD 13 0 then board
  else if board.getD 12 0 = 24 ∧ board.getD 13 0 = 24 then board
  else List.replicate 12 0 ++
    [board.getD 12 0 + (slice board 0 6).sum,
     board.getD 13 0 + (slice board 6 12).sum]

/-- `Oware.has_legal_moves`. -/
def has_legal_moves (board : List Nat) (turn : Int) : Bool :=
  if turn = SOUTH then
    if slice board 0 6 ≠ List.replicate 6 0 then
      if slice board 6 12 ≠ List.replicate 6 0 then true
      else [5, 4, 3, 2, 1, 0].any
        (fun h => decide (0 < board.getD h 0) && decide (5 - h < board.getD h 0))
    else false
  else
    if slice board 6 12 ≠ List.replicate 6 0 then
      if slice board 0 6 ≠ List.replicate 6 0 then true
      else [11, 10, 9, 8, 7, 6].any
        (fun h => decide (0 < board.getD h 0) && decide (11 - h < board.getD h 0))
    else false

/-- `Oware.is_end`. -/
def is_end (board : List Nat) (turn : Int) : Bool :=
  if 24 < board.getD 12 0 ∨ 24 < board.getD 13 0 then true
  else if has_legal_moves board turn then false
  else true

/-- `Oware.get_score`: heuristic midgame evaluation. -/
def get_score (board : List Nat) : Int :=
  (board.getD 12 0 : Int) - (board.getD 13 0 : Int)

/-- `Oware.get_final_score`: exact value of an endgame position. -/
def get_final_score (board : List Nat) : Int :=
  if 24 < board.getD 12 0 then 10000
  else if 24 < board.getD 13 0 then -10000
  else
    if 24 < board.getD 12 0 + (slice board 0 6).sum then 10000
    else if board.getD 12 0 + (slice board 0 6).sum < 24 then -10000
    else 0

/-- `Oware.xlegal_moves` as the list the Python generator yields:
captures first (high to low house), then non-capturing moves. -/
def xlegal_moves (board : List Nat) (turn : Int) : List Nat :=
  if turn = SOUTH then
    ([5, 4, 3, 2, 1, 0].filter
      (fun m => decide (0 < board.getD m 0) && decide (5 - m < board.getD m 0)
          && is_capture board m)) ++
    (if slice board 6 12 ≠ List.replicate 6 0 then
      ([0, 1, 2, 3, 4, 5].filter
        (fun m => decide (0 < board.getD m 0) && decide (board.getD m 0 < 3)
            && !(is_capture board m))) ++
      ([0, 1, 2, 3, 4, 5].filter
        (fun m => decide (2 < board.getD m 0) && !(is_capture board m)))
    else
      [0, 1, 2, 3, 4, 5].filter
        (fun m => decide (0 < board.getD m 0) && decide (5 - m < board.getD m 0)
            && !(is_capture board m)))
  else
    ([11, 10, 9, 8, 7, 6].filter
      (fun m => decide (0 < board.getD m 0) && decide (11 - m < board.getD m 0)
          && is_capture board m)) ++
    (if slice board 0 6 ≠ List.replicate 6 0 then
      ([6, 7, 8, 9, 10, 11].filter
        (fun m => decide (0 < board.getD m 0) && decide (board.getD m 0 < 3)
            && !(is_capture board m))) ++
      ([6, 7, 8, 9, 10, 11].filter
        (fun m => decide (2 < board.getD m 0) && !(is_capture board m)))
    else
      [6, 7, 8, 9, 10, 11].filter
        (fun m => decide (0 < board.getD m 0) && decide (11 - m < board.getD m 0)
            && !(is_capture board m)))

/-- Boards reachable from `get_initial_board` by sequences of legal moves
(either side may start). -/
inductive Reachable : List Nat → Int → Prop where
  | init (t : Int) : Reachable get_initial_board t
  | step {b : List Nat} {t : Int} {m : Nat} {b' : List Nat} :
      Reachable b t → m ∈ xlegal_moves b t → compute_board b m = some b' →
      Reachable b' (-t)

/-- A line-of-play key: a board together with the side to move
(`position = (board, turn)` in `engine.py`). -/
abbrev Pos := List Nat × Int

/-- `Engine.__INFINITY = 1000`. -/
def INFINITY : Int := 1000

/-- The sibling loop of `Engine._search`, parameterized over the deeper
search `f`.  The state threads the alpha bound, the line of play, and a
counter of the recursive `_search` invocations performed so far; Python's
`break` on `score >= beta` returns `beta` (fail hard).  When
`compute_board` fails (a move with an empty source house) Python would
raise; that path returns the current alpha and is unreachable for moves
produced by `xlegal_moves`. -/
def searchLoopF (f : List Nat → Int → Int → Int → List Pos → Int × List Pos × Nat)
    (board : List Nat) (turn : Int) :
    List Nat → Int → Int → List Pos → Nat → Int × List Pos × Nat
  | [], alpha, _beta, line, calls => (alpha, line, calls)
  | cmove :: moves, alpha, beta, line, calls =>
    match compute_board board cmove with
    | none => (alpha, line, calls)
    | some cboard =>
      match f cboard (-turn) (-beta) (-alpha) line with
      | (subscore, line', _) =>
        if beta ≤ -subscore then (beta, line', calls + 1)
        else if alpha < -subscore then
          searchLoopF f board turn moves (-subscore) beta line' (calls + 1)
        else searchLoopF f board turn moves alpha beta line' (calls + 1)

/-- `Engine._search` as a pure function.  The abort flag is a parameter;
the result is the returned score, the final line of play, and the number
of direct recursive `_search` calls the invocation performed. -/
def search (aborted : Bool) : Nat → List Nat → Int → Int → Int → List Pos →
    Int × List Pos × Nat
  | depth, board, turn, alpha, beta, line =>
    if aborted then (-INFINITY, line, 0)
    else if is_end board turn = true ∨ (board, turn) ∈ line then
      (turn * get_final_score board, line, 0)
    else
      match depth with
      | 0 => (turn * get_score board, line, 0)
      | d + 1 =>
        match searchLoopF (fun b2 t2 a2 b3 l2 => search aborted d b2 t2 a2 b3 l2)
            board turn (xlegal_moves board turn) alpha beta
            ((board, turn) :: line) 0 with
        | (alphaOut, lineOut, calls) =>
          (alphaOut, lineOut.erase (board, turn), calls)

/-- Python `str(n)` for a natural number, as a character list. -/
def natStr (n : Nat) : List Char := Nat.toDigits 10 n

/-- Python `'-'.join(parts)`. -/
def joinDash : List (List Char) → List Char
  | [] => []
  | [x] => x
  | x :: xs => x ++ '-' :: joinDash xs

/-- `Oware.to_board_notation`: dash-separated house counts followed by
the side marker. -/
def to_board_notn (board : List Nat) (turn : Int) : List Char :=
  joinDash (board.map natStr ++ [[if turn = SOUTH then 'S' else 'N']])

/-- Decimal value of a digit character. -/
def digitVal (c : Char) : Nat := c.toNat - 48

/-- One repetition of the group `[1-4]?[0-9]-` of the position regex
`((?:[1-4]?[0-9]-){14})(S|N)$`, with the regex's greedy-then-backtrack
behaviour: a two-digit number `10..49` is preferred, otherwise a single
digit. -/
def parseGroup : List Char → Option (Nat × List Char)
  | c1 :: c2 :: c3 :: rest =>
    if ('1' ≤ c1 ∧ c1 ≤ '4') ∧ ('0' ≤ c2 ∧ c2 ≤ '9') ∧ c3 = '-' then
      some (10 * digitVal c1 + digitVal c2, rest)
    else if ('0' ≤ c1 ∧ c1 ≤ '9') ∧ c2 = '-' then
      some (digitVal c1, c3 :: rest)
    else none
  | [c1, c2] =>
    if ('0' ≤ c1 ∧ c1 ≤ '9') ∧ c2 = '-' then some (digitVal c1, [])
    else none
  | _ => none

/-- `k` repetitions of the group `[1-4]?[0-9]-`. -/
def parseGroups : Nat → List Char → Option (List Nat × List Char)
  | 0, s => some ([], s)
  | k + 1, s =>
    match parseGroup s with
    | none => none
    | some (n, s') =>
      match parseGroups k s' with
      | none => none
      | some (ns, s'') => some (n :: ns, s'')

/-- `Oware.to_position`: parse a position in the notation
`((?:[1-4]?[0-9]-){14})(S|N)$`; `none` models the `ValueError`. -/
def to_position (s : List Char) : Option (List Nat × Int) :=
  match parseGroups 14 s with
  | none => none
  | some (ns, rest) =>
    match rest with
    | ['S'] => some (ns, SOUTH)
    | ['N'] => some (ns, NORTH)
    | _ => none

/-- `Oware.to_move`: a single move letter to its house index; `none`
models the `ValueError`. -/
def to_move (c : Char) : Option Nat :=
  if 65 ≤ c.toNat ∧ c.toNat ≤ 70 then some (c.toNat - 65)
  else if 97 ≤ c.toNat ∧ c.toNat ≤ 102 then some (c.toNat - 91)
  else none

/-- Alternating move letters: lowercase `a`-`f` at even positions and
uppercase `A`-`F` at odd ones when `low` is `true` (and conversely). -/
def altSeq : Bool → List Char → Bool
  | _, [] => true
  | low, c :: cs =>
    (if low then decide ('a' ≤ c ∧ c ≤ 'f') else decide ('A' ≤ c ∧ c ≤ 'F'))
      && altSeq (!low) cs

/-- Whether `re.match` succeeds on the moves pattern
`([A-F]([a-f][A-F])*[a-f]?)|([a-f]([A-F][a-f])*[A-F]?)$`.  The `$`
anchors only the second alternative, and `re.match` needs only a prefix
match, so the first alternative succeeds exactly when the string starts
with an uppercase move letter; the second requires the whole string to be
a nonempty alternating sequence starting with a lowercase letter. -/
def movesPattern (s : List Char) : Bool :=
  (match s with
   | c :: _ => decide ('A' ≤ c ∧ c ≤ 'F')
   | [] => false)
  || (!s.isEmpty && altSeq true s)

/-- `Oware.to_moves`: check the moves pattern, then convert every letter
of the string. -/
def to_moves (s : List Char) : Option (List Nat) :=
  if movesPattern s then s.mapM to_move else none

end Oware

namespace Oware

theorem getD_set_self (l : List Nat) (i v : Nat) (h : i < l.length) :
    (l.set i v).getD i 0 = v := by
  induction l generalizing i with
  | nil => simp at h
  | cons a t ih =>
    cases i with
    | zero => simp
    | succ n => simpa using ih n (by simpa using h)

theorem getD_set_ne (l : List Nat) (i j v : Nat) (h : i ≠ j) :
    (l.set i v).getD j 0 = l.getD j 0 := by
  induction l generalizing i j with
  | nil => simp
  | cons a t ih =>
    cases i with
    | zero =>
      cases j with
      | zero => exact absurd rfl h
      | succ m => simp
    | succ n =>
      cases j with
      | zero => simp
      | succ m => simpa using ih n m (by omega)

theorem set_sum (l : List Nat) (i v : Nat) (h : i < l.length) :
    (l.set i v).sum + l.getD i 0 = l.sum + v := by
  induction l generalizing i with
  | nil => simp at h
  | cons a t ih =>
    cases i with
    | zero => simp [List.sum_cons]; omega
    | succ n =>
      have := ih n (by simpa using h)
      simp only [List.set_cons_succ, List.getD_cons_succ, List.sum_cons]
      omega

theorem getD_le_sum (l : List Nat) (i : Nat) : l.getD i 0 ≤ l.sum := by
  induction l generalizing i with
  | nil => simp
  | cons a t ih =>
    cases i with
    | zero => simp
    | succ n => have := ih n; simp only [List.getD_cons_succ, List.sum_cons]; omega

theorem getD_mem (l : List Nat) (j : Nat) (h : j < l.length) : l.getD j 0 ∈ l := by
  induction l generalizing j with
  | nil => simp at h
  | cons a t ih =>
    cases j with
    | zero => simp
    | succ n => simp only [List.getD_cons_succ]; exact List.mem_cons_of_mem _ (ih n (by simpa using h))

theorem mem_iff_getD (l : List Nat) (x : Nat) :
    x ∈ l ↔ ∃ j, j < l.length ∧ l.getD j 0 = x := by
  constructor
  · intro hx
    induction l with
    | nil => simp at hx
    | cons a t ih =>
      rcases List.mem_cons.1 hx with rfl | hx
      · exact ⟨0, by simp, by simp⟩
      · obtain ⟨j, hj, hg⟩ := ih hx
        exact ⟨j + 1, by simpa using hj, by simpa using hg⟩
  · rintro ⟨j, hj, rfl⟩; exact getD_mem l j hj

theorem getD_take (l : List Nat) (n j : Nat) (h : j < n) :
    (l.take n).getD j 0 = l.getD j 0 := by
  induction l generalizing n j with
  | nil => simp
  | cons a t ih =>
    cases n with
    | zero => omega
    | succ m =>
      cases j with
      | zero => simp
      | succ k => simpa using ih m k (by omega)

theorem getD_drop (l : List Nat) (a j : Nat) :
    (l.drop a).getD j 0 = l.getD (a + j) 0 := by
  induction l generalizing a with
  | nil => simp
  | cons x t ih =>
    cases a with
    | zero => simp
    | succ m =>
      have := ih m
      simpa [Nat.succ_add] using this

theorem getD_append_small (l l' : List Nat) (j : Nat) (h : j < l.length) :
    (l ++ l').getD j 0 = l.getD j 0 := by
  induction l generalizing j with
  | nil => simp at h
  | cons a t ih =>
    cases j with
    | zero => simp
    | succ k => simpa using ih k (by simpa using h)

theorem getD_append_big (l l' : List Nat) (j : Nat) (h : l.length ≤ j) :
    (l ++ l').getD j 0 = l'.getD (j - l.length) 0 := by
  induction l generalizing j with
  | nil => simp
  | cons a t ih =>
    cases j with
    | zero => simp at h
    | succ k => simpa using ih k (by simpa using h)

theorem getD_replicate_zero (k j : Nat) : (List.replicate k 0).getD j 0 = 0 := by
  induction k generalizing j with
  | zero => simp
  | succ m ih =>
    cases j with
    | zero => simp
    | succ i => simpa using ih i

theorem eq_replicate_zero (l : List Nat) (k : Nat) (hlen : l.length = k)
    (h : ∀ j, j < k → l.getD j 0 = 0) : l = List.replicate k 0 := by
  induction l generalizing k with
  | nil => simp at hlen; simp [← hlen]
  | cons a t ih =>
    cases k with
    | zero => simp at hlen
    | succ m =>
      have ha : a = 0 := by simpa using h 0 (by omega)
      have ht : t = List.replicate m 0 :=
        ih m (by simpa using hlen) (fun j hj => by simpa using h (j + 1) (by omega))
      simp [List.replicate_succ, ha, ht]

theorem slice_getD (l : List Nat) (a j : Nat) (hj : j < 6) :
    (slice l a (a + 6)).getD j 0 = l.getD (a + j) 0 := by
  unfold slice
  rw [show a + 6 - a = 6 by omega, getD_take _ _ _ hj, getD_drop]

theorem slice_length (l : List Nat) (a : Nat) (h : a + 6 ≤ l.length) :
    (slice l a (a + 6)).length = 6 := by
  unfold slice
  rw [show a + 6 - a = 6 by omega]
  rw [List.length_take, List.length_drop]
  omega

theorem slice_eq_replicate_iff (l : List Nat) (a : Nat) (h : a + 6 ≤ l.length) :
    slice l a (a + 6) = List.replicate 6 0 ↔ ∀ j, j < 6 → l.getD (a + j) 0 = 0 := by
  constructor
  · intro he j hj
    rw [← slice_getD l a j hj, he, getD_replicate_zero]
  · intro hz
    exact eq_replicate_zero _ _ (slice_length l a h)
      (fun j hj => by rw [slice_getD l a j hj]; exact hz j hj)

end Oware

namespace Oware

theorem sowList_nil (b : List Nat) : sowList b [] = b := rfl

theorem sowList_cons (b : List Nat) (h : Nat) (t : List Nat) :
    sowList b (h :: t) = sowList (b.set h (b.getD h 0 + 1)) t := rfl

theorem sowList_length (hs : List Nat) (b : List Nat) :
    (sowList b hs).length = b.length := by
  induction hs generalizing b with
  | nil => rfl
  | cons h t ih => rw [sowList_cons, ih, List.length_set]

theorem sowList_getD (hs : List Nat) (b : List Nat)
    (hin : ∀ h ∈ hs, h < b.length) (j : Nat) :
    (sowList b hs).getD j 0 = b.getD j 0 + cnt j hs := by
  induction hs generalizing b with
  | nil => simp [sowList_nil, cnt]
  | cons h t ih =>
    have hb : h < b.length := hin h (by simp)
    have hin2 : ∀ x ∈ t, x < (b.set h (b.getD h 0 + 1)).length := by
      intro x hx; rw [List.length_set]; exact hin x (by simp [hx])
    rw [sowList_cons, ih _ hin2]
    by_cases hj : h = j
    · subst hj
      rw [getD_set_self _ _ _ hb]
      simp [cnt]
      omega
    · rw [getD_set_ne _ _ _ _ hj]
      simp only [cnt, if_neg hj]
      omega

theorem sowList_sum (hs : List Nat) (b : List Nat)
    (hin : ∀ h ∈ hs, h < b.length) :
    (sowList b hs).sum = b.sum + hs.length := by
  induction hs generalizing b with
  | nil => simp [sowList_nil]
  | cons h t ih =>
    have hb : h < b.length := hin h (by simp)
    have hin2 : ∀ x ∈ t, x < (b.set h (b.getD h 0 + 1)).length := by
      intro x hx; rw [List.length_set]; exact hin x (by simp [hx])
    rw [sowList_cons, ih _ hin2]
    have := set_sum b h (b.getD h 0 + 1) hb
    simp only [List.length_cons]
    omega

theorem harvestLoop_nil (st : Nat) (x : List Nat) : harvestLoop st [] x = x := rfl

theorem harvestLoop_cons (st h : Nat) (c : List Nat) (x : List Nat) :
    harvestLoop st (h :: c) x =
      if 1 < x.getD h 0 ∧ x.getD h 0 < 4 then
        harvestLoop st c ((x.set st (x.getD st 0 + x.getD h 0)).set h 0)
      else x := rfl

theorem harvestLoop_length (st : Nat) (chain : List Nat) (x : List Nat) :
    (harvestLoop st chain x).length = x.length := by
  induction chain generalizing x with
  | nil => rfl
  | cons h c ih =>
    rw [harvestLoop_cons]
    split
    · rw [ih]; simp [List.length_set]
    · rfl

theorem harvestLoop_sum (st : Nat) (chain : List Nat) (x : List Nat)
    (hst : st < x.length) (hch : ∀ h ∈ chain, h < x.length ∧ h ≠ st) :
    (harvestLoop st chain x).sum = x.sum := by
  induction chain generalizing x with
  | nil => rfl
  | cons h c ih =>
    rw [harvestLoop_cons]
    split
    · have hh := hch h (by simp)
      have e1 := set_sum x st (x.getD st 0 + x.getD h 0) hst
      have e2 := set_sum (x.set st (x.getD st 0 + x.getD h 0)) h 0
        (by rw [List.length_set]; exact hh.1)
      have e3 : (x.set st (x.getD st 0 + x.getD h 0)).getD h 0 = x.getD h 0 :=
        getD_set_ne _ _ _ _ (fun he => hh.2 he.symm)
      rw [ih]
      · omega
      · simp only [List.length_set]; exact hst
      · intro y hy
        simp only [List.length_set]
        exact hch y (by simp [hy])
    · rfl

theorem harvestLoop_store_le (st : Nat) (chain : List Nat) (x : List Nat)
    (hch : ∀ h ∈ chain, h ≠ st) :
    x.getD st 0 ≤ (harvestLoop st chain x).getD st 0 := by
  induction chain generalizing x with
  | nil => exact Nat.le_refl _
  | cons h c ih =>
    rw [harvestLoop_cons]
    split
    · rename_i hguard
      by_cases hstl : st < x.length
      · have step : ((x.set st (x.getD st 0 + x.getD h 0)).set h 0).getD st 0 =
            x.getD st 0 + x.getD h 0 := by
          rw [getD_set_ne _ _ _ _ (hch h (by simp)), getD_set_self _ _ _ hstl]
        have := ih (fun y hy => hch y (by simp [hy]))
          (x := (x.set st (x.getD st 0 + x.getD h 0)).set h 0)
        omega
      · have hx : x.getD st 0 = 0 := by
          rw [List.getD_eq_default]
          omega
        rw [hx]
        exact Nat.zero_le _
    · exact Nat.le_refl _

theorem harvestLoop_untouched (st : Nat) (chain : List Nat) (x : List Nat)
    (i : Nat) (hi : i ∉ chain) (hist : i ≠ st) :
    (harvestLoop st chain x).getD i 0 = x.getD i 0 := by
  induction chain generalizing x with
  | nil => rfl
  | cons h c ih =>
    rw [harvestLoop_cons]
    split
    · have hih : i ∉ c := fun hc => hi (by simp [hc])
      have hhne : h ≠ i := fun he => hi (by simp [he])
      rw [ih _ hih, getD_set_ne _ _ _ _ hhne, getD_set_ne _ _ _ _ (fun he => hist he.symm)]
    · rfl

end Oware

namespace Oware

theorem range'_reverse_cons (o n : Nat) :
    (List.range' o (n + 1)).reverse = (o + n) :: (List.range' o n).reverse := by
  rw [List.range'_1_concat, List.reverse_append]
  rfl

theorem mem_range'_reverse (o n j : Nat) :
    j ∈ (List.range' o n).reverse ↔ o ≤ j ∧ j < o + n := by
  rw [List.mem_reverse, List.mem_range'_1]

/-- The seed drill visits only the 11 houses other than the source. -/
theorem seedDrill_mem : ∀ m, m < 12 → ∀ h ∈ seedDrill m, h < 12 ∧ h ≠ m := by decide

theorem seedDrill_length : ∀ m, m < 12 → (seedDrill m).length = 48 := by decide

/-- D1: the landing house of a sow of `t + 1` seeds is visited exactly
`t / 11 + 1` times. -/
theorem cnt_last : ∀ m < 12, ∀ t < 48,
    cnt (sdGet m t) ((seedDrill m).take (t + 1)) = t / 11 + 1 := by
  decide

/-- D2: for a short sow (at most 11 seeds) landing in the opponent's row,
each opponent pit up to the landing house is visited once and the pits
beyond it are not visited. -/
theorem cnt_short : ∀ m < 12, ∀ t < 11, ∀ j < 6,
    (decide (sdGet m t < 6)) = (decide (5 < m)) →
    cnt ((if m < 6 then 6 else 0) + j) ((seedDrill m).take (t + 1)) =
      if (if m < 6 then 6 else 0) + j ≤ sdGet m t then 1 else 0 := by
  decide

/-- D3: a sow of at least 12 seeds visits every opponent pit. -/
theorem cnt_long_pos : ∀ m < 12, ∀ t < 48, 11 ≤ t → ∀ j < 6,
    1 ≤ cnt ((if m < 6 then 6 else 0) + j) ((seedDrill m).take (t + 1)) := by
  decide

/-- D4: a sow of 12..22 seeds landing on the far end of the opponent row
visits every opponent pit exactly twice. -/
theorem cnt_two_laps : ∀ m < 12, ∀ t < 22, 11 ≤ t →
    sdGet m t = (if m < 6 then 11 else 5) → ∀ j < 6,
    cnt ((if m < 6 then 6 else 0) + j) ((seedDrill m).take (t + 1)) = 2 := by
  decide

/-- D5: a sow of 23..33 seeds landing on the far end of the opponent row
visits every opponent pit exactly three times. -/
theorem cnt_three_laps : ∀ m < 12, ∀ t < 33, 22 ≤ t →
    sdGet m t = (if m < 6 then 11 else 5) → ∀ j < 6,
    cnt ((if m < 6 then 6 else 0) + j) ((seedDrill m).take (t + 1)) = 3 := by
  decide

/-- The harvest chain from `h` is the descending walk back to the
boundary of the row containing `h`. -/
theorem harvester_eq : ∀ h, h < 12 →
    harvester h = (List.range' (if h < 6 then 0 else 6) (h % 6 + 1)).reverse := by
  decide

end Oware

namespace Oware

theorem mem_xselections (items : List Nat) :
    ∀ (len : Nat) (c : List Nat),
    c ∈ xselections items len ↔ c.length = len ∧ ∀ x ∈ c, x ∈ items := by
  intro len
  induction len with
  | zero =>
    intro c
    constructor
    · intro hc
      simp only [xselections, List.mem_singleton] at hc
      subst hc
      simp
    · rintro ⟨hlen, _⟩
      rw [List.length_eq_zero] at hlen
      subst hlen
      simp [xselections]
  | succ n ih =>
    intro c
    simp only [xselections, List.mem_flatten, List.mem_map]
    constructor
    · rintro ⟨L, ⟨a, ha, rfl⟩, hc⟩
      obtain ⟨sel, hsel, rfl⟩ := List.mem_map.1 hc
      obtain ⟨hl, hm⟩ := (ih sel).1 hsel
      refine ⟨by simp [hl], ?_⟩
      intro x hx
      rcases List.mem_cons.1 hx with rfl | hx
      · exact ha
      · exact hm x hx
    · rintro ⟨hlen, hmem⟩
      cases c with
      | nil => simp at hlen
      | cons a sel =>
        refine ⟨(xselections items n).map (fun s2 => a :: s2),
          ⟨a, hmem a (by simp), rfl⟩, ?_⟩
        exact List.mem_map.2 ⟨sel,
          (ih sel).2 ⟨by simpa using hlen, fun x hx => hmem x (by simp [hx])⟩, rfl⟩

theorem mem_xboard_positions (items : List Nat) (len : Nat) (hlen : len ≤ 6)
    (r : List Nat) (hr : r.length = 6) :
    r ∈ xboard_positions items len ↔
      (∀ j, j < len → r.getD j 0 ∈ items) ∧
      (∀ j, len ≤ j → j < 6 → r.getD j 0 = 0) := by
  unfold xboard_positions
  rw [List.mem_map]
  constructor
  · rintro ⟨c, hc, rfl⟩
    obtain ⟨hcl, hcm⟩ := (mem_xselections items len c).1 hc
    constructor
    · intro j hj
      rw [getD_append_small _ _ _ (by omega)]
      exact hcm _ (getD_mem c j (by omega))
    · intro j hj1 hj2
      rw [getD_append_big _ _ _ (by omega), getD_replicate_zero]
  · rintro ⟨hin, hz⟩
    refine ⟨r.take len, ?_, ?_⟩
    · rw [mem_xselections]
      constructor
      · rw [List.length_take]; omega
      · intro x hx
        obtain ⟨j, hj, hg⟩ := (mem_iff_getD _ x).1 hx
        rw [List.length_take] at hj
        rw [getD_take _ _ _ (by omega)] at hg
        exact hg ▸ hin j (by omega)
    · have hd : r.drop len = List.replicate (6 - len) 0 := by
        apply eq_replicate_zero
        · rw [List.length_drop, hr]
        · intro j hj
          rw [getD_drop]
          exact hz (len + j) (by omega) (by omega)
      rw [← hd, List.take_append_drop]

end Oware

namespace Oware

/-- Walking the harvest chain from local pit `n` of the row starting at
`o` zeroes the whole row iff every chain pit holds 2 or 3 seeds and every
pit beyond the landing one is already empty.  `hpos` records that sowing
has put at least one seed in every chain pit. -/
theorem harvest_chain_zero (o : Nat) (ho : o = 0 ∨ o = 6) (st : Nat)
    (hst : st = 12 ∨ st = 13) :
    ∀ (n : Nat), n ≤ 5 → ∀ (x : List Nat), x.length = 14 →
    (∀ j, j ≤ n → 1 ≤ x.getD (o + j) 0) →
    ((∀ j, j < 6 →
        (harvestLoop st ((List.range' o (n + 1)).reverse) x).getD (o + j) 0 = 0)
      ↔ ((∀ j, j ≤ n → x.getD (o + j) 0 = 2 ∨ x.getD (o + j) 0 = 3)
          ∧ (∀ j, n < j → j < 6 → x.getD (o + j) 0 = 0))) := by
  intro n
  induction n with
  | zero =>
    intro _ x hxl hpos
    have hchain : (List.range' o 1).reverse = [o] := by simp
    rw [hchain, harvestLoop_cons, harvestLoop_nil]
    by_cases hg : 1 < x.getD o 0 ∧ x.getD o 0 < 4
    · rw [if_pos hg]
      have hself : ((x.set st (x.getD st 0 + x.getD o 0)).set o 0).getD o 0 = 0 :=
        getD_set_self _ _ _ (by simp [List.length_set, hxl]; omega)
      have hother : ∀ j, 1 ≤ j → j < 6 →
          ((x.set st (x.getD st 0 + x.getD o 0)).set o 0).getD (o + j) 0 =
            x.getD (o + j) 0 := by
        intro j hj1 hj6
        rw [getD_set_ne _ _ _ _ (by omega), getD_set_ne _ _ _ _ (by omega)]
      constructor
      · intro hz
        refine ⟨fun j hj => by interval_cases j; simp only [Nat.add_zero]; omega,
          fun j hj1 hj6 => ?_⟩
        have := hz j (by omega)
        rwa [hother j (by omega) hj6] at this
      · rintro ⟨_, hz⟩ j hj6
        rcases Nat.eq_zero_or_pos j with rfl | hj1
        · exact hself
        · rw [hother j hj1 hj6]
          exact hz j (by omega) hj6
    · rw [if_neg hg]
      constructor
      · intro hz
        have h0 := hz 0 (by omega)
        have h1 := hpos 0 (by omega)
        simp only [Nat.add_zero] at h0 h1
        omega
      · rintro ⟨h23, _⟩
        have := h23 0 (by omega)
        simp only [Nat.add_zero] at this
        omega
  | succ n ih =>
    intro hn x hxl hpos
    have hlt : o + (n + 1) < 12 := by omega
    rw [range'_reverse_cons, harvestLoop_cons]
    by_cases hg : 1 < x.getD (o + (n + 1)) 0 ∧ x.getD (o + (n + 1)) 0 < 4
    · rw [if_pos hg]
      have hxl2 : ((x.set st (x.getD st 0 + x.getD (o + (n + 1)) 0)).set
          (o + (n + 1)) 0).length = 14 := by simp [List.length_set, hxl]
      have hsame : ∀ j, j < 6 → j ≠ n + 1 →
          ((x.set st (x.getD st 0 + x.getD (o + (n + 1)) 0)).set
            (o + (n + 1)) 0).getD (o + j) 0 = x.getD (o + j) 0 := by
        intro j hj6 hjn
        rw [getD_set_ne _ _ _ _ (by omega), getD_set_ne _ _ _ _ (by omega)]
      have hzeroed : ((x.set st (x.getD st 0 + x.getD (o + (n + 1)) 0)).set
          (o + (n + 1)) 0).getD (o + (n + 1)) 0 = 0 :=
        getD_set_self _ _ _ (by simp [List.length_set, hxl]; omega)
      rw [ih (by omega) _ hxl2 (fun j hj => by
        rw [hsame j (by omega) (by omega)]; exact hpos j (by omega))]
      constructor
      · rintro ⟨h23, hz⟩
        refine ⟨fun j hj => ?_, fun j hj1 hj6 => ?_⟩
        · rcases Nat.lt_or_ge j (n + 1) with hjn | hjn
          · have := h23 j (by omega)
            rwa [hsame j (by omega) (by omega)] at this
          · have hj' : j = n + 1 := by omega
            subst hj'
            omega
        · have := hz j (by omega) hj6
          rwa [hsame j hj6 (by omega)] at this
      · rintro ⟨h23, hz⟩
        refine ⟨fun j hj => by
          rw [hsame j (by omega) (by omega)]; exact h23 j (by omega),
          fun j hj1 hj6 => ?_⟩
        rcases Nat.eq_or_lt_of_le hj1 with hj' | hj'
        · rw [← hj']
          exact hzeroed
        · rw [hsame j hj6 (by omega)]
          exact hz j (by omega) hj6
    · rw [if_neg hg]
      constructor
      · intro hz
        have h0 := hz (n + 1) (by omega)
        have h1 := hpos (n + 1) (by omega)
        omega
      · rintro ⟨h23, _⟩
        have := h23 (n + 1) (by omega)
        omega

end Oware

namespace Oware

theorem cnt_eq_zero (x : Nat) (l : List Nat) (h : x ∉ l) : cnt x l = 0 := by
  induction l with
  | nil => rfl
  | cons y ys ih =>
    have hyx : y ≠ x := fun he => h (by simp [he])
    simp only [cnt, if_neg hyx, ih (fun hm => h (by simp [hm]))]

theorem getLast?_take (l : List Nat) (s : Nat) (h1 : 1 ≤ s) (h2 : s ≤ l.length) :
    (l.take s).getLast? = some (l.getD (s - 1) 0) := by
  rw [List.getLast?_eq_getElem?, List.length_take]
  have hmin : min s l.length = s := by omega
  rw [hmin, List.getElem?_take_of_lt (by omega), List.getD_eq_getElem?_getD,
    List.getElem?_eq_getElem (by omega)]
  rfl

/-- The list of houses sown by move `m` on board `b`
(`Oware._SEED_DRILL[move][:board[move]]`). -/
def sowHouses (b : List Nat) (m : Nat) : List Nat :=
  (seedDrill m).take (b.getD m 0)

/-- The board after the sowing phase of `compute_board` (the Python
`new_board`). -/
def sown (b : List Nat) (m : Nat) : List Nat :=
  sowList (b.set m 0) (sowHouses b m)

/-- The landing house of move `m` on board `b` (the Python loop variable
`house` after sowing). -/
def landing (b : List Nat) (m : Nat) : Nat := sdGet m (b.getD m 0 - 1)

theorem sowHouses_mem (b : List Nat) (m : Nat) (hm : m < 12) :
    ∀ h ∈ sowHouses b m, h < 12 ∧ h ≠ m := by
  intro h hh
  exact seedDrill_mem m hm h (List.mem_of_mem_take hh)

theorem sowHouses_length (b : List Nat) (m : Nat) (hm : m < 12)
    (hs48 : b.getD m 0 ≤ 48) : (sowHouses b m).length = b.getD m 0 := by
  unfold sowHouses
  rw [List.length_take, seedDrill_length m hm]
  omega

theorem sown_length (b : List Nat) (m : Nat) :
    (sown b m).length = b.length := by
  unfold sown
  rw [sowList_length, List.length_set]

theorem sown_getD (b : List Nat) (m : Nat) (hlen : b.length = 14) (hm : m < 12)
    (j : Nat) :
    (sown b m).getD j 0 =
      (if m = j then 0 else b.getD j 0) + cnt j (sowHouses b m) := by
  unfold sown
  rw [sowList_getD _ _ (fun h hh => by
    rw [List.length_set, hlen]; exact (sowHouses_mem b m hm h hh).1.trans (by omega))]
  by_cases hj : m = j
  · subst hj
    rw [getD_set_self _ _ _ (by omega), if_pos rfl]
  · rw [getD_set_ne _ _ _ _ hj, if_neg hj]

theorem sown_store (b : List Nat) (m : Nat) (hlen : b.length = 14) (hm : m < 12)
    (j : Nat) (hj : 12 ≤ j) :
    (sown b m).getD j 0 = b.getD j 0 := by
  rw [sown_getD b m hlen hm j, if_neg (by omega),
    cnt_eq_zero _ _ (fun hc => by have := (sowHouses_mem b m hm j hc).1; omega)]
  omega


/-- `compute_board` on a house with at least one seed, unfolded to the
sown board and the landing house. -/
theorem compute_board_unfold (b : List Nat) (m : Nat) (hm : m < 12)
    (hs1 : 1 ≤ b.getD m 0) (hs48 : b.getD m 0 ≤ 48) :
    compute_board b m =
      (if 1 < (sown b m).getD (landing b m) 0 ∧ (sown b m).getD (landing b m) 0 < 4 then
        if m < 6 ∧ 5 < landing b m then
          if slice (harvestLoop 12 (harvester (landing b m)) (sown b m)) 6 12 ≠
              List.replicate 6 0 then
            some (harvestLoop 12 (harvester (landing b m)) (sown b m))
          else some (sown b m)
        else if 5 < m ∧ landing b m < 6 then
          if slice (harvestLoop 13 (harvester (landing b m)) (sown b m)) 0 6 ≠
              List.replicate 6 0 then
            some (harvestLoop 13 (harvester (landing b m)) (sown b m))
          else some (sown b m)
        else some (sown b m)
      else some (sown b m)) := by
  unfold compute_board
  rw [getLast?_take _ _ hs1 (by rw [seedDrill_length m hm]; omega)]
  rfl

theorem compute_board_of_zero (b : List Nat) (m : Nat) (h : b.getD m 0 = 0) :
    compute_board b m = none := by
  unfold compute_board
  rw [h]
  rfl

end Oware

namespace Oware

theorem landing_facts (b : List Nat) (m : Nat) (hm : m < 12)
    (hs1 : 1 ≤ b.getD m 0) (hs48 : b.getD m 0 ≤ 48) :
    landing b m < 12 ∧ landing b m ≠ m := by
  have hmem : landing b m ∈ seedDrill m := by
    unfold landing sdGet
    exact getD_mem _ _ (by rw [seedDrill_length m hm]; omega)
  exact seedDrill_mem m hm _ hmem

theorem harvester_mem_lt (h : Nat) (hh : h < 12) :
    ∀ y ∈ harvester h, y < 12 := by
  intro y hy
  rw [harvester_eq h hh, mem_range'_reverse] at hy
  split at hy <;> omega

theorem sown_sum (b : List Nat) (m : Nat) (hm : m < 12) (hlen : b.length = 14)
    (hs48 : b.getD m 0 ≤ 48) : (sown b m).sum = b.sum := by
  unfold sown
  rw [sowList_sum _ _ (fun h hh => by
    rw [List.length_set, hlen]
    exact (sowHouses_mem b m hm h hh).1.trans (by omega))]
  have h1 := set_sum b m 0 (by omega)
  rw [sowHouses_length b m hm hs48]
  omega

theorem compute_board_length_sum (b : List Nat) (m : Nat) (hm : m < 12)
    (hlen : b.length = 14) (hs1 : 1 ≤ b.getD m 0) (hs48 : b.getD m 0 ≤ 48)
    (b' : List Nat) (hcb : compute_board b m = some b') :
    b'.length = 14 ∧ b'.sum = b.sum := by
  have hsl : (sown b m).length = 14 := by rw [sown_length, hlen]
  have hss : (sown b m).sum = b.sum := sown_sum b m hm hlen hs48
  have hld := landing_facts b m hm hs1 hs48
  have hch12 : ∀ y ∈ harvester (landing b m), y < (sown b m).length ∧ y ≠ 12 := by
    intro y hy
    have := harvester_mem_lt _ hld.1 y hy
    constructor
    · omega
    · omega
  have hch13 : ∀ y ∈ harvester (landing b m), y < (sown b m).length ∧ y ≠ 13 := by
    intro y hy
    have := harvester_mem_lt _ hld.1 y hy
    constructor
    · omega
    · omega
  rw [compute_board_unfold b m hm hs1 hs48] at hcb
  split at hcb
  · split at hcb
    · split at hcb
      · cases hcb
        rw [harvestLoop_length, harvestLoop_sum _ _ _ (by omega) hch12]
        exact ⟨hsl, hss⟩
      · cases hcb
        exact ⟨hsl, hss⟩
    · split at hcb
      · split at hcb
        · cases hcb
          rw [harvestLoop_length, harvestLoop_sum _ _ _ (by omega) hch13]
          exact ⟨hsl, hss⟩
        · cases hcb
          exact ⟨hsl, hss⟩
      · cases hcb
        exact ⟨hsl, hss⟩
  · cases hcb
    exact ⟨hsl, hss⟩

theorem legal_move_facts (b : List Nat) (t : Int) (m : Nat)
    (hm : m ∈ xlegal_moves b t) : m < 12 ∧ 1 ≤ b.getD m 0 := by
  have main : ∀ (L : List Nat) (p : Nat → Bool), m ∈ L.filter p →
      (∀ x ∈ L, x < 12) → (∀ x, p x = true → 1 ≤ b.getD x 0) →
      m < 12 ∧ 1 ≤ b.getD m 0 := by
    intro L p hmem hL hp
    obtain ⟨h1, h2⟩ := List.mem_filter.1 hmem
    exact ⟨hL m h1, hp m h2⟩
  unfold xlegal_moves at hm
  split at hm <;>
  · rcases List.mem_append.1 hm with h | h
    · exact main _ _ h (by decide)
        (fun x hx => by
          simp only [Bool.and_eq_true, decide_eq_true_eq] at hx
          omega)
    · split at h
      · rcases List.mem_append.1 h with h2 | h2
        · exact main _ _ h2 (by decide)
            (fun x hx => by
              simp only [Bool.and_eq_true, decide_eq_true_eq] at hx
              omega)
        · exact main _ _ h2 (by decide)
            (fun x hx => by
              simp only [Bool.and_eq_true, decide_eq_true_eq] at hx
              omega)
      · exact main _ _ h (by decide)
          (fun x hx => by
            simp only [Bool.and_eq_true, decide_eq_true_eq] at hx
            omega)

/-- Every reachable board has 14 entries summing to 48. -/
theorem reachable_inv (b : List Nat) (t : Int) (hr : Reachable b t) :
    b.length = 14 ∧ b.sum = 48 := by
  induction hr with
  | init t => exact ⟨rfl, rfl⟩
  | step hr hmove hcb ih =>
    rename_i b0 t0 m b1
    obtain ⟨hm12, hs1⟩ := legal_move_facts b0 t0 m hmove
    have hs48 : b0.getD m 0 ≤ 48 := ih.2 ▸ getD_le_sum b0 m
    obtain ⟨hl, hs⟩ := compute_board_length_sum b0 m hm12 ih.1 hs1 hs48 b1 hcb
    exact ⟨hl, by rw [hs, ih.2]⟩

end Oware

namespace Oware

/-- Mover's store index: 12 for SOUTH houses, 13 for NORTH houses. -/
def storeIdx (m : Nat) : Nat := if m < 6 then 12 else 13

theorem cond_iff (bl s c : Nat) (hc : c = (s - 1) / 11 + 1) (hs1 : 1 ≤ s)
    (hs33 : s ≤ 33) :
    (¬ 2 < bl ∧ (xor (decide (bl = 0)) (decide (s < 12))
      || (decide (11 < s) && decide (s < 23) && decide (bl = 1))) = true)
    ↔ (bl + c = 2 ∨ bl + c = 3) := by
  by_cases h1 : bl = 0 <;> by_cases h2 : bl = 1 <;> by_cases h3 : s < 12 <;>
    by_cases h4 : 11 < s <;> by_cases h5 : s < 23 <;>
    simp [h1, h2, h3, h4, h5] <;> omega

/-- The rejected-capture test of `compute_board`: walking the harvest
chain zeroes the whole opponent row iff every chain pit of the sown board
holds 2 or 3 seeds and every pit beyond the landing one is empty. -/
theorem grand_slam_core (b : List Nat) (m o st nloc : Nat)
    (hlen : b.length = 14) (hm : m < 12)
    (ho : o = 0 ∨ o = 6) (hst : st = 12 ∨ st = 13) (hnloc : nloc ≤ 5)
    (hchain : harvester (landing b m) = (List.range' o (nloc + 1)).reverse)
    (hpos : ∀ j, j ≤ nloc → 1 ≤ (sown b m).getD (o + j) 0) :
    ((slice (harvestLoop st (harvester (landing b m)) (sown b m)) o (o + 6) =
        List.replicate 6 0)
      ↔ ((∀ j, j ≤ nloc →
            (sown b m).getD (o + j) 0 = 2 ∨ (sown b m).getD (o + j) 0 = 3)
          ∧ (∀ j, nloc < j → j < 6 → (sown b m).getD (o + j) 0 = 0))) := by
  have hxl : (sown b m).length = 14 := by rw [sown_length, hlen]
  have hhl : (harvestLoop st (harvester (landing b m)) (sown b m)).length = 14 := by
    rw [harvestLoop_length, hxl]
  rw [slice_eq_replicate_iff _ _ (by omega), hchain]
  exact harvest_chain_zero o ho st hst nloc hnloc (sown b m) hxl hpos

/-- Grand-Slam table check for a short sow (at most 11 seeds): membership
of the pre-sow opponent row in `REAPER`'s position set coincides with the
harvest chain zeroing the whole row. -/
theorem slam_short (b : List Nat) (m o nloc : Nat)
    (hlen : b.length = 14) (hm : m < 12) (ho : o = 0 ∨ o = 6) (hnloc : nloc ≤ 5)
    (hLo : landing b m = o + nloc)
    (hmrow : ∀ j, j < 6 → o + j ≠ m)
    (hcnt : ∀ j, j < 6 → cnt (o + j) (sowHouses b m) =
        if o + j ≤ landing b m then 1 else 0) :
    (slice b o (o + 6) ∈ xboard_positions [1, 2] (nloc + 1)
      ↔ ((∀ j, j ≤ nloc →
            (sown b m).getD (o + j) 0 = 2 ∨ (sown b m).getD (o + j) 0 = 3)
          ∧ (∀ j, nloc < j → j < 6 → (sown b m).getD (o + j) 0 = 0))) := by
  have hsg : ∀ j, j < 6 → (sown b m).getD (o + j) 0 =
      b.getD (o + j) 0 + (if o + j ≤ landing b m then 1 else 0) := by
    intro j hj
    rw [sown_getD b m hlen hm (o + j), if_neg (fun he => hmrow j hj he.symm), hcnt j hj]
  rw [mem_xboard_positions _ _ (by omega) _ (slice_length b o (by omega))]
  constructor
  · rintro ⟨h1, h2⟩
    constructor
    · intro j hj
      have hx := h1 j (by omega)
      rw [slice_getD _ _ _ (by omega)] at hx
      rw [hsg j (by omega), if_pos (by omega)]
      simp only [List.mem_cons, List.mem_singleton, List.not_mem_nil, or_false] at hx
      omega
    · intro j hj1 hj2
      have hx := h2 j (by omega) hj2
      rw [slice_getD _ _ _ hj2] at hx
      rw [hsg j hj2, if_neg (by omega), hx]
  · rintro ⟨h1, h2⟩
    constructor
    · intro j hj
      rw [slice_getD _ _ _ (by omega)]
      have hx := h1 j (by omega)
      rw [hsg j (by omega), if_pos (by omega)] at hx
      simp only [List.mem_cons, List.mem_singleton, List.not_mem_nil, or_false]
      omega
    · intro j hj1 hj2
      rw [slice_getD _ _ _ hj2]
      have hx := h2 j hj1 hj2
      rw [hsg j hj2, if_neg (by omega)] at hx
      omega

/-- Grand-Slam table check for a wrapped sow that lands on the far end of
the opponent row, having dropped `k` seeds in every opponent pit. -/
theorem slam_laps (b : List Nat) (m o k : Nat) (items : List Nat)
    (hlen : b.length = 14) (hm : m < 12) (ho : o = 0 ∨ o = 6)
    (hmrow : ∀ j, j < 6 → o + j ≠ m)
    (hcnt : ∀ j, j < 6 → cnt (o + j) (sowHouses b m) = k)
    (hiff : ∀ x : Nat, x ∈ items ↔ (x + k = 2 ∨ x + k = 3)) :
    (slice b o (o + 6) ∈ xboard_positions items 6
      ↔ ((∀ j, j ≤ 5 →
            (sown b m).getD (o + j) 0 = 2 ∨ (sown b m).getD (o + j) 0 = 3)
          ∧ (∀ j, 5 < j → j < 6 → (sown b m).getD (o + j) 0 = 0))) := by
  have hsg : ∀ j, j < 6 → (sown b m).getD (o + j) 0 =
      b.getD (o + j) 0 + k := by
    intro j hj
    rw [sown_getD b m hlen hm (o + j), if_neg (fun he => hmrow j hj he.symm), hcnt j hj]
  rw [mem_xboard_positions _ _ (by omega) _ (slice_length b o (by omega))]
  constructor
  · rintro ⟨h1, _⟩
    refine ⟨fun j hj => ?_, fun j hj1 hj2 => by omega⟩
    have hx := h1 j (by omega)
    rw [slice_getD _ _ _ (by omega)] at hx
    rw [hsg j (by omega)]
    rw [hiff] at hx
    omega
  · rintro ⟨h1, _⟩
    refine ⟨fun j hj => ?_, fun j hj1 hj2 => by omega⟩
    rw [slice_getD _ _ _ (by omega), hiff]
    have hx := h1 j (by omega)
    rw [hsg j (by omega)] at hx
    omega

/-- A successful first gather adds at least two seeds to the store. -/
theorem harvest_store_gain (st L : Nat) (rest : List Nat) (x : List Nat)
    (hxlen : x.length = 14) (hst : st = 12 ∨ st = 13) (hL : L < 12)
    (hrest : ∀ y ∈ rest, y ≠ st)
    (hv : x.getD L 0 = 2 ∨ x.getD L 0 = 3) :
    x.getD st 0 + 2 ≤ (harvestLoop st (L :: rest) x).getD st 0 := by
  rw [harvestLoop_cons, if_pos (by omega)]
  have hstep : ((x.set st (x.getD st 0 + x.getD L 0)).set L 0).getD st 0 =
      x.getD st 0 + x.getD L 0 := by
    rw [getD_set_ne _ _ _ _ (by omega),
      getD_set_self _ _ _ (by rw [hxlen]; omega)]
  have hmono := harvestLoop_store_le st rest
    ((x.set st (x.getD st 0 + x.getD L 0)).set L 0) hrest
  omega

/-- Common final assembly of the capture/compute equivalence, once the
`REAPER` entry, the Grand-Slam equivalence and the sown landing value are
known. -/
theorem capture_finish (b b' : List Nat) (m o st : Nat) (P : List (List Nat))
    (hlen : b.length = 14) (hm : m < 12) (hs1 : 1 ≤ b.getD m 0)
    (hs33 : b.getD m 0 ≤ 33)
    (ho : o = 0 ∨ o = 6) (hst : st = 12 ∨ st = 13)
    (hL12 : landing b m < 12)
    (hreP : reaperEntry m (b.getD m 0) = some (sdGet m (b.getD m 0 - 1), P))
    (hrow : (if m < 6 then (if slice b 6 12 ∈ P then false else true)
         else (if slice b 0 6 ∈ P then false else true)) =
        (if slice b o (o + 6) ∈ P then false else true))
    (hcb2 : (if 1 < (sown b m).getD (landing b m) 0 ∧
          (sown b m).getD (landing b m) 0 < 4
        then (if slice (harvestLoop st (harvester (landing b m)) (sown b m))
                o (o + 6) ≠ List.replicate 6 0
              then some (harvestLoop st (harvester (landing b m)) (sown b m))
              else some (sown b m))
        else some (sown b m)) = some b')
    (hGS : (slice b o (o + 6) ∈ P) ↔
        (slice (harvestLoop st (harvester (landing b m)) (sown b m)) o (o + 6) =
          List.replicate 6 0))
    (hvc : (sown b m).getD (landing b m) 0 =
        b.getD (landing b m) 0 + ((b.getD m 0 - 1) / 11 + 1))
    (hNBst : (sown b m).getD st 0 = b.getD st 0)
    (hchainC : ∃ rest, harvester (landing b m) = landing b m :: rest ∧
        ∀ y ∈ rest, y ≠ st) :
    (is_capture b m = true ↔ b.getD st 0 < b'.getD st 0) := by
  have hNBlen : (sown b m).length = 14 := by rw [sown_length, hlen]
  have hcond := cond_iff (b.getD (landing b m) 0) (b.getD m 0)
    ((b.getD m 0 - 1) / 11 + 1) rfl hs1 hs33
  have hreP2 : reaperEntry m (b.getD m 0) = some (landing b m, P) := hreP
  have hicEq : is_capture b m =
      (if 2 < b.getD (landing b m) 0 then false
       else if (xor (decide (b.getD (landing b m) 0 = 0))
            (decide (b.getD m 0 < 12))
          || (decide (11 < b.getD m 0) && decide (b.getD m 0 < 23)
              && decide (b.getD (landing b m) 0 = 1))) then
         (if slice b o (o + 6) ∈ P then false else true)
       else false) := by
    unfold is_capture
    simp only [hreP2]
    rw [hrow]
  by_cases hv23 : (sown b m).getD (landing b m) 0 = 2 ∨
      (sown b m).getD (landing b m) 0 = 3
  · by_cases hmem : slice b o (o + 6) ∈ P
    · have hrep := hGS.mp hmem
      rw [if_pos (by omega), if_neg (fun hne => hne hrep)] at hcb2
      have hb' : b' = sown b m := (Option.some_inj.1 hcb2).symm
      have hcc := hcond.mpr (by omega)
      rw [hicEq, if_neg (by omega), if_pos hcc.2, if_pos hmem, hb', hNBst]
      exact iff_of_false (by simp) (by omega)
    · have hne : slice (harvestLoop st (harvester (landing b m)) (sown b m))
          o (o + 6) ≠ List.replicate 6 0 := fun h => hmem (hGS.mpr h)
      rw [if_pos (by omega), if_pos hne] at hcb2
      have hb' : b' = harvestLoop st (harvester (landing b m)) (sown b m) :=
        (Option.some_inj.1 hcb2).symm
      obtain ⟨rest, hch, hrest⟩ := hchainC
      have hgain := harvest_store_gain st (landing b m) rest (sown b m)
        hNBlen hst hL12 hrest hv23
      rw [← hch] at hgain
      have hcc := hcond.mpr (by omega)
      rw [hicEq, if_neg (by omega), if_pos hcc.2, if_neg hmem, hb']
      exact iff_of_true rfl (by omega)
  · rw [if_neg (by omega)] at hcb2
    have hb' : b' = sown b m := (Option.some_inj.1 hcb2).symm
    rw [hicEq, hb', hNBst]
    by_cases hbl2 : 2 < b.getD (landing b m) 0
    · rw [if_pos hbl2]
      exact iff_of_false (by simp) (by omega)
    · have hcF : ¬((xor (decide (b.getD (landing b m) 0 = 0))
            (decide (b.getD m 0 < 12))
          || (decide (11 < b.getD m 0) && decide (b.getD m 0 < 23)
              && decide (b.getD (landing b m) 0 = 1))) = true) := by
        intro hct
        exact hv23 (by have := hcond.mp ⟨hbl2, hct⟩; omega)
      rw [if_neg hbl2, if_neg hcF]
      exact iff_of_false (by simp) (by omega)

theorem capture_core (b : List Nat) (m : Nat) (hlen : b.length = 14)
    (hsum : b.sum = 48) (hm : m < 12) (hs1 : 1 ≤ b.getD m 0)
    (b' : List Nat) (hcb : compute_board b m = some b') :
    (is_capture b m = true ↔
      b.getD (storeIdx m) 0 < b'.getD (storeIdx m) 0) := by
  have hs48 : b.getD m 0 ≤ 48 := hsum ▸ getD_le_sum b m
  have hld := landing_facts b m hm hs1 hs48
  -- abbreviations
  set s := b.getD m 0 with hs_def
  set L := landing b m with hL_def
  set NB := sown b m with hNB_def
  have hNBlen : NB.length = 14 := by rw [hNB_def, sown_length, hlen]
  have hNBst12 : NB.getD 12 0 = b.getD 12 0 := sown_store b m hlen hm 12 (by omega)
  have hNBst13 : NB.getD 13 0 = b.getD 13 0 := sown_store b m hlen hm 13 (by omega)
  have hNBst : NB.getD (storeIdx m) 0 = b.getD (storeIdx m) 0 := by
    unfold storeIdx; split
    · exact hNBst12
    · exact hNBst13
  -- the landing value after sowing
  have hv : NB.getD L 0 = b.getD L 0 + cnt L (sowHouses b m) := by
    rw [hNB_def, sown_getD b m hlen hm L, if_neg (fun he => hld.2 he.symm)]
  have hcnt : cnt L (sowHouses b m) = (s - 1) / 11 + 1 := by
    have := cnt_last m hm (s - 1) (by omega)
    rw [show s - 1 + 1 = s by omega] at this
    exact this
  -- which side is the landing house on
  by_cases hopp : (m < 6 ∧ 5 < L) ∨ (5 < m ∧ L < 6)
  case neg =>
    -- the sow ends in the mover's own row: never a capture, never a harvest
    have hLs : landing b m = sdGet m (s - 1) := rfl
    have hre : reaperEntry m s = none := by
      unfold reaperEntry
      split
      · rw [if_neg]
        rw [decide_eq_decide]
        omega
      · rfl
    have hic : is_capture b m = false := by
      unfold is_capture
      rw [← hs_def, hre]
    have hb' : b' = NB := by
      rw [compute_board_unfold b m hm hs1 hs48] at hcb
      rw [← hL_def, ← hNB_def] at hcb
      split at hcb
      · rw [if_neg (fun h => hopp (Or.inl h)), if_neg (fun h => hopp (Or.inr h))] at hcb
        exact (Option.some_inj.1 hcb).symm
      · exact (Option.some_inj.1 hcb).symm
    rw [hic, hb', hNBst]
    simp
  case pos =>
    have hLs : L = sdGet m (s - 1) := hL_def
    by_cases hs33 : s ≤ 33
    case neg =>
      -- 34 or more seeds: not in the table, and the landing pit ends with
      -- at least 4 seeds, so no capture either way
      have hre : reaperEntry m s = none := by
        unfold reaperEntry
        rw [if_neg (by omega)]
      have hic : is_capture b m = false := by
        unfold is_capture
        rw [← hs_def, hre]
      have hvbig : ¬(1 < NB.getD L 0 ∧ NB.getD L 0 < 4) := by
        rw [hv, hcnt]
        omega
      have hb' : b' = NB := by
        rw [compute_board_unfold b m hm hs1 hs48] at hcb
        rw [← hL_def, ← hNB_def] at hcb
        rw [if_neg hvbig] at hcb
        exact (Option.some_inj.1 hcb).symm
      rw [hic, hb', hNBst]
      simp
    case pos =>
      -- parameters of the opponent's row
      obtain ⟨o, st, ho, hst, hosel, hstI, hfar1, hLlo, hLhi, hmrow⟩ :
          ∃ o st, (o = 0 ∨ o = 6) ∧ (st = 12 ∨ st = 13) ∧
            ((if m < 6 then (6 : Nat) else 0) = o) ∧ storeIdx m = st ∧
            ((if m < 6 then (11 : Nat) else 5) = o + 5) ∧
            o ≤ L ∧ L < o + 6 ∧ (∀ j, j < 6 → o + j ≠ m) := by
        rcases hopp with ⟨hm6, hL6⟩ | ⟨hm6, hL6⟩
        · exact ⟨6, 12, Or.inr rfl, Or.inl rfl, by simp [hm6],
            by unfold storeIdx; rw [if_pos hm6], by simp [hm6],
            by omega, by omega, fun j hj => by omega⟩
        · have hm6' : ¬ m < 6 := by omega
          exact ⟨0, 13, Or.inl rfl, Or.inr rfl, by simp [hm6'],
            by unfold storeIdx; rw [if_neg hm6'], by simp [hm6'],
            by omega, by omega, fun j hj => by omega⟩
      have hL12 : L < 12 := by omega
      have hside : (decide (sdGet m (s - 1) < 6)) = (decide (5 < m)) := by
        rw [← hLs, decide_eq_decide]
        omega
      have hstG : b.getD (storeIdx m) 0 < b'.getD (storeIdx m) 0 ↔
          b.getD st 0 < b'.getD st 0 := by rw [hstI]
      rw [hstG]
      have hNBst2 : (sown b m).getD st 0 = b.getD st 0 := by
        rw [← hstI]
        exact hNBst
      -- the compute side, reduced to the mover's branch
      rw [compute_board_unfold b m hm hs1 hs48] at hcb
      rw [← hL_def, ← hNB_def] at hcb
      have hcb2 : (if 1 < (sown b m).getD (landing b m) 0 ∧
            (sown b m).getD (landing b m) 0 < 4
          then (if slice (harvestLoop st (harvester (landing b m)) (sown b m))
                  o (o + 6) ≠ List.replicate 6 0
                then some (harvestLoop st (harvester (landing b m)) (sown b m))
                else some (sown b m))
          else some (sown b m)) = some b' := by
        rcases hopp with ⟨hm6, hL6⟩ | ⟨hm6, hL6⟩
        · have ho6 : o = 6 := by rw [← hosel, if_pos hm6]
          have hst12 : st = 12 := by rw [← hstI]; unfold storeIdx; rw [if_pos hm6]
          subst ho6
          subst hst12
          rw [if_pos (show m < 6 ∧ 5 < L from ⟨hm6, hL6⟩)] at hcb
          rw [show (6 : Nat) + 6 = 12 from rfl]
          exact hcb
        · have hm6' : ¬ m < 6 := by omega
          have ho0 : o = 0 := by rw [← hosel, if_neg hm6']
          have hst13 : st = 13 := by rw [← hstI]; unfold storeIdx; rw [if_neg hm6']
          subst ho0
          subst hst13
          rw [if_neg (show ¬(m < 6 ∧ 5 < L) from by omega),
            if_pos (show 5 < m ∧ L < 6 from ⟨hm6, hL6⟩)] at hcb
          rw [show (0 : Nat) + 6 = 6 from rfl]
          exact hcb
      -- the is_capture row selector
      have hrow : ∀ P : List (List Nat),
          (if m < 6 then (if slice b 6 12 ∈ P then false else true)
           else (if slice b 0 6 ∈ P then false else true)) =
          (if slice b o (o + 6) ∈ P then false else true) := by
        intro P
        rcases hopp with ⟨hm6, hL6⟩ | ⟨hm6, hL6⟩
        · have ho6 : o = 6 := by rw [← hosel, if_pos hm6]
          subst ho6
          rw [if_pos hm6, show (6 : Nat) + 6 = 12 from rfl]
        · have hm6' : ¬ m < 6 := by omega
          have ho0 : o = 0 := by rw [← hosel, if_neg hm6']
          subst ho0
          rw [if_neg hm6', show (0 : Nat) + 6 = 6 from rfl]
      -- the harvest chain
      have hchain : harvester L = (List.range' o (L - o + 1)).reverse := by
        have h1 : (if L < 6 then (0 : Nat) else 6) = o := by
          rcases ho with h | h <;> subst h
          · rw [if_pos (by omega)]
          · rw [if_neg (by omega)]
        have h2 : L % 6 = L - o := by
          rcases ho with h | h <;> subst h <;> omega
        rw [harvester_eq L hL12, h1, h2]
      have hchainC : ∃ rest, harvester (landing b m) = landing b m :: rest ∧
          ∀ y ∈ rest, y ≠ st := by
        refine ⟨(List.range' o (L - o)).reverse, ?_, ?_⟩
        · rw [← hL_def, hchain, range'_reverse_cons,
            show o + (L - o) = L from by omega]
        · intro y hy
          rw [mem_range'_reverse] at hy
          omega
      have hvc : (sown b m).getD (landing b m) 0 =
          b.getD (landing b m) 0 + ((b.getD m 0 - 1) / 11 + 1) := by
        rw [← hL_def, ← hNB_def, ← hs_def, hv, hcnt]
      have hnl : reaperLoc m s = L - o := by
        unfold reaperLoc
        rw [← hLs]
        rcases ho with h | h <;> subst h
        · rw [if_neg (by omega)]
          omega
        · rw [if_pos (by omega)]
      -- case split on the seed-count lap range
      by_cases hr12 : s < 12
      · -- one lap at most: the REAPER stores positions[0][n]
        have hreP : reaperEntry m s = some (sdGet m (s - 1),
            xboard_positions [1, 2] (L - o + 1)) := by
          unfold reaperEntry
          rw [if_pos ⟨hs1, hs33⟩, if_pos hside, if_pos hr12, hnl]
        have hcnts : ∀ j, j < 6 → cnt (o + j) (sowHouses b m) =
            if o + j ≤ landing b m then 1 else 0 := by
          intro j hj
          have hx := cnt_short m hm (s - 1) (by omega) j hj hside
          rw [show s - 1 + 1 = s from by omega, hosel, ← hLs] at hx
          exact hx
        have hpos2 : ∀ j, j ≤ L - o → 1 ≤ (sown b m).getD (o + j) 0 := by
          intro j hj
          rw [sown_getD b m hlen hm (o + j),
            if_neg (fun he => hmrow j (by omega) he.symm), hcnts j (by omega),
            if_pos (by omega)]
          omega
        have hGS1 := slam_short b m o (L - o) hlen hm ho (by omega) (by omega)
          hmrow hcnts
        have hGS2 := grand_slam_core b m o st (L - o) hlen hm ho hst (by omega)
          (by rw [← hL_def]; exact hchain) hpos2
        exact capture_finish b b' m o st _ hlen hm hs1 hs33 ho hst
          (by omega) hreP (hrow _) hcb2 (hGS1.trans hGS2.symm) hvc hNBst2 hchainC
      · -- twelve seeds or more: every opponent pit is sown
        have hfarIff : (sdGet m (s - 1) = 11 ∨ sdGet m (s - 1) = 5) ↔
            L = o + 5 := by
          rw [← hLs]
          rcases ho with h | h <;> subst h <;> omega
        have hposL : ∀ j, j ≤ 5 → 1 ≤ (sown b m).getD (o + j) 0 := by
          intro j hj
          have hx := cnt_long_pos m hm (s - 1) (by omega) (by omega) j (by omega)
          rw [show s - 1 + 1 = s from by omega, hosel,
            show (seedDrill m).take s = sowHouses b m from rfl] at hx
          rw [sown_getD b m hlen hm (o + j),
            if_neg (fun he => hmrow j (by omega) he.symm)]
          omega
        by_cases hfarL : L = o + 5
        · by_cases hr23 : s < 23
          · -- two laps ending on the row's far end
            have hreP : reaperEntry m s = some (sdGet m (s - 1),
                xboard_positions [0, 1] 6) := by
              unfold reaperEntry
              rw [if_pos ⟨hs1, hs33⟩, if_pos hside, if_neg hr12,
                if_pos (hfarIff.mpr hfarL), if_pos hr23, hnl,
                show L - o = 5 from by omega]
            have hcnts : ∀ j, j < 6 → cnt (o + j) (sowHouses b m) = 2 := by
              intro j hj
              have hx := cnt_two_laps m hm (s - 1) (by omega) (by omega)
                (by rw [hfar1, ← hLs]; exact hfarL) j hj
              rw [show s - 1 + 1 = s from by omega, hosel] at hx
              exact hx
            have hGS1 := slam_laps b m o 2 [0, 1] hlen hm ho hmrow hcnts
              (fun x => by
                simp only [List.mem_cons, List.mem_singleton, List.not_mem_nil,
                  or_false]
                omega)
            have hGS2 := grand_slam_core b m o st 5 hlen hm ho hst (by omega)
              (by rw [← hL_def, hchain, show L - o = 5 from by omega]) hposL
            exact capture_finish b b' m o st _ hlen hm hs1 hs33 ho hst
              (by omega) hreP (hrow _) hcb2 (hGS1.trans hGS2.symm) hvc hNBst2 hchainC
          · -- three laps ending on the row's far end
            have hreP : reaperEntry m s = some (sdGet m (s - 1),
                xboard_positions [0] 6) := by
              unfold reaperEntry
              rw [if_pos ⟨hs1, hs33⟩, if_pos hside, if_neg hr12,
                if_pos (hfarIff.mpr hfarL), if_neg hr23,
                show [List.replicate 6 0] = xboard_positions [0] 6 from by decide]
            have hcnts : ∀ j, j < 6 → cnt (o + j) (sowHouses b m) = 3 := by
              intro j hj
              have hx := cnt_three_laps m hm (s - 1) (by omega) (by omega)
                (by rw [hfar1, ← hLs]; exact hfarL) j hj
              rw [show s - 1 + 1 = s from by omega, hosel] at hx
              exact hx
            have hGS1 := slam_laps b m o 3 [0] hlen hm ho hmrow hcnts
              (fun x => by
                simp only [List.mem_singleton, List.not_mem_nil, or_false]
                omega)
            have hGS2 := grand_slam_core b m o st 5 hlen hm ho hst (by omega)
              (by rw [← hL_def, hchain, show L - o = 5 from by omega]) hposL
            exact capture_finish b b' m o st _ hlen hm hs1 hs33 ho hst
              (by omega) hreP (hrow _) hcb2 (hGS1.trans hGS2.symm) hvc hNBst2 hchainC
        · -- a wrapped sow not ending on the far end: a Grand Slam is
          -- impossible and the table stores the empty set
          have hreP : reaperEntry m s = some (sdGet m (s - 1), []) := by
            unfold reaperEntry
            rw [if_pos ⟨hs1, hs33⟩, if_pos hside, if_neg hr12,
              if_neg (fun hf => hfarL (hfarIff.mp hf))]
          have hGS : (slice b o (o + 6) ∈ ([] : List (List Nat))) ↔
              (slice (harvestLoop st (harvester (landing b m)) (sown b m))
                o (o + 6) = List.replicate 6 0) := by
            refine iff_of_false (List.not_mem_nil _) (fun hrep => ?_)
            have huntouched : (harvestLoop st (harvester (landing b m))
                (sown b m)).getD (o + 5) 0 = (sown b m).getD (o + 5) 0 := by
              apply harvestLoop_untouched
              · rw [← hL_def, hchain]
                rw [mem_range'_reverse]
                omega
              · omega
            have h5 := hposL 5 (by omega)
            rw [← huntouched] at h5
            have hz : (harvestLoop st (harvester (landing b m))
                (sown b m)).getD (o + 5) 0 = 0 := by
              rw [← slice_getD _ _ 5 (by omega), hrep, getD_replicate_zero]
            omega
          exact capture_finish b b' m o st _ hlen hm hs1 hs33 ho hst
            (by omega) hreP (hrow _) hcb2 hGS hvc hNBst2 hchainC

end Oware

namespace Oware

theorem compute_board_total (b : List Nat) (m : Nat) (hm : m < 12)
    (hlen : b.length = 14) (hs1 : 1 ≤ b.getD m 0) :
    ∃ b', compute_board b m = some b' ∧ b'.length = 14 := by
  unfold compute_board
  have hne : (seedDrill m).take (b.getD m 0) ≠ [] := by
    have h48 := seedDrill_length m hm
    intro he
    have hl := congrArg List.length he
    rw [List.length_take, h48] at hl
    simp only [List.length_nil] at hl
    omega
  obtain ⟨house, hh⟩ : ∃ h, ((seedDrill m).take (b.getD m 0)).getLast? = some h := by
    cases hgl : ((seedDrill m).take (b.getD m 0)).getLast? with
    | none => exact absurd (List.getLast?_eq_none_iff.1 hgl) hne
    | some h2 => exact ⟨h2, rfl⟩
  have hsl : (sowList (b.set m 0) ((seedDrill m).take (b.getD m 0))).length = 14 := by
    rw [sowList_length, List.length_set, hlen]
  simp only [hh]
  split
  · split
    · split
      · exact ⟨_, rfl, by rw [harvestLoop_length, hsl]⟩
      · exact ⟨_, rfl, hsl⟩
    · split
      · split
        · exact ⟨_, rfl, by rw [harvestLoop_length, hsl]⟩
        · exact ⟨_, rfl, hsl⟩
      · exact ⟨_, rfl, hsl⟩
  · exact ⟨_, rfl, hsl⟩

theorem natStr_facts : ∀ n, n < 50 →
    (n < 10 → natStr n = [Nat.digitChar n]) ∧
    (10 ≤ n → natStr n = [Nat.digitChar (n / 10), Nat.digitChar (n % 10)]) := by
  decide

theorem digitChar_facts : ∀ d, d < 10 →
    ('0' ≤ Nat.digitChar d ∧ Nat.digitChar d ≤ '9') ∧
    digitVal (Nat.digitChar d) = d ∧
    (1 ≤ d → d ≤ 4 → ('1' ≤ Nat.digitChar d ∧ Nat.digitChar d ≤ '4')) := by
  decide

theorem parseGroup_natStr (n : Nat) (hn : n ≤ 49) (rest : List Char) :
    parseGroup (natStr n ++ '-' :: rest) = some (n, rest) := by
  rcases Nat.lt_or_ge n 10 with h10 | h10
  · rw [(natStr_facts n (by omega)).1 h10]
    obtain ⟨⟨hd0, hd9⟩, hdv, _⟩ := digitChar_facts n h10
    cases rest with
    | nil =>
      show parseGroup [Nat.digitChar n, '-'] = some (n, [])
      simp only [parseGroup]
      rw [if_pos ⟨⟨hd0, hd9⟩, trivial⟩, hdv]
    | cons c cs =>
      show parseGroup (Nat.digitChar n :: '-' :: c :: cs) = some (n, c :: cs)
      simp only [parseGroup]
      rw [if_neg (fun hcon => absurd hcon.2.1.1 (by decide)),
        if_pos ⟨⟨hd0, hd9⟩, trivial⟩, hdv]
  · rw [(natStr_facts n (by omega)).2 h10]
    obtain ⟨⟨h1a, h1b⟩, hdv1, h14⟩ := digitChar_facts (n / 10) (by omega)
    obtain ⟨⟨h2a, h2b⟩, hdv2, _⟩ := digitChar_facts (n % 10) (by omega)
    obtain ⟨h41, h42⟩ := h14 (by omega) (by omega)
    show parseGroup (Nat.digitChar (n / 10) :: Nat.digitChar (n % 10) :: '-' :: rest) =
      some (n, rest)
    simp only [parseGroup]
    rw [if_pos ⟨⟨h41, h42⟩, ⟨h2a, h2b⟩, trivial⟩, hdv1, hdv2,
      show 10 * (n / 10) + n % 10 = n from by omega]

theorem parseGroups_natStr : ∀ (bs : List Nat), (∀ x ∈ bs, x ≤ 49) → ∀ (T : Char),
    parseGroups bs.length (joinDash (bs.map natStr ++ [[T]])) = some (bs, [T]) := by
  intro bs
  induction bs with
  | nil => intro _ T; rfl
  | cons n rest ih =>
    intro hmem T
    have hjoin : joinDash ((n :: rest).map natStr ++ [[T]]) =
        natStr n ++ '-' :: joinDash (rest.map natStr ++ [[T]]) := by
      show joinDash (natStr n :: (rest.map natStr ++ [[T]])) = _
      cases hmap : rest.map natStr ++ [[T]] with
      | nil => simp at hmap
      | cons y ys => rfl
    rw [show (n :: rest).length = rest.length + 1 from rfl, hjoin]
    unfold parseGroups
    rw [parseGroup_natStr n (hmem n (by simp)) _]
    simp only [ih (fun x hx => hmem x (by simp [hx])) T]

/-- Claim C1: for every board reachable from the initial board by legal
moves and every legal move `m` for the player to move, `is_capture b m`
is true iff `compute_board b m` strictly increases the mover's store
(entry 12 when `m` is in 0..5, entry 13 when `m` is in 6..11). -/
theorem claim_C1 (b : List Nat) (t : Int) (m : Nat) (b' : List Nat)
    (hr : Reachable b t) (hm : m ∈ xlegal_moves b t)
    (hcb : compute_board b m = some b') :
    (is_capture b m = true ↔
      b.getD (if m < 6 then 12 else 13) 0 <
        b'.getD (if m < 6 then 12 else 13) 0) := by
  obtain ⟨hlen, hsum⟩ := reachable_inv b t hr
  obtain ⟨hm12, hs1⟩ := legal_move_facts b t m hm
  have hc := capture_core b m hlen hsum hm12 hs1 b' hcb
  unfold storeIdx at hc
  exact hc

/-- Witness for C1: the initial board with SOUTH to move and move 0. -/
theorem claim_C1_witness :
    (is_capture get_initial_board 0 = true ↔
      get_initial_board.getD (if 0 < 6 then 12 else 13) 0 <
        ([0, 5, 5, 5, 5, 4, 4, 4, 4, 4, 4, 4, 0, 0] : List Nat).getD
          (if 0 < 6 then 12 else 13) 0) :=
  claim_C1 get_initial_board SOUTH 0 [0, 5, 5, 5, 5, 4, 4, 4, 4, 4, 4, 4, 0, 0]
    (Reachable.init SOUTH) (by decide) (by decide)

/-- Claim C4: seed conservation — applying any legal move to a reachable
board preserves the total number of seeds, which is 48. -/
theorem claim_C4 (b : List Nat) (t : Int) (m : Nat) (b' : List Nat)
    (hr : Reachable b t) (hm : m ∈ xlegal_moves b t)
    (hcb : compute_board b m = some b') :
    b'.sum = b.sum ∧ b.sum = 48 := by
  obtain ⟨hlen, hsum⟩ := reachable_inv b t hr
  obtain ⟨hm12, hs1⟩ := legal_move_facts b t m hm
  have hs48 : b.getD m 0 ≤ 48 := hsum ▸ getD_le_sum b m
  obtain ⟨_, hs⟩ := compute_board_length_sum b m hm12 hlen hs1 hs48 b' hcb
  exact ⟨hs, hsum⟩

/-- Witness for C4: the initial board with SOUTH to move and move 1. -/
theorem claim_C4_witness :
    ([4, 0, 5, 5, 5, 5, 4, 4, 4, 4, 4, 4, 0, 0] : List Nat).sum =
        (get_initial_board : List Nat).sum ∧
      (get_initial_board : List Nat).sum = 48 :=
  claim_C4 get_initial_board SOUTH 1 [4, 0, 5, 5, 5, 5, 4, 4, 4, 4, 4, 4, 0, 0]
    (Reachable.init SOUTH) (by decide) (by decide)

/-- Claim C2: when the sow lands in the opponent's row with a post-sow
value of 2 or 3 but walking the harvest chain would leave the entire
opponent row empty, `compute_board` discards the capture and returns the
purely sown board, with both stores unchanged. -/
theorem claim_C2 (b : List Nat) (m : Nat) (hlen : b.length = 14) (hm : m < 12)
    (hs1 : 1 ≤ b.getD m 0) (hs48 : b.getD m 0 ≤ 48)
    (hopp : (m < 6 ∧ 5 < landing b m) ∨ (5 < m ∧ landing b m < 6))
    (hval : (sown b m).getD (landing b m) 0 = 2 ∨
        (sown b m).getD (landing b m) 0 = 3)
    (hzero : slice (harvestLoop (if m < 6 then 12 else 13)
          (harvester (landing b m)) (sown b m))
        (if m < 6 then 6 else 0) ((if m < 6 then 6 else 0) + 6) =
        List.replicate 6 0) :
    compute_board b m = some (sown b m) ∧
    (sown b m).getD 12 0 = b.getD 12 0 ∧
    (sown b m).getD 13 0 = b.getD 13 0 := by
  refine ⟨?_, sown_store b m hlen hm 12 (by omega),
    sown_store b m hlen hm 13 (by omega)⟩
  rw [compute_board_unfold b m hm hs1 hs48]
  rcases hopp with ⟨hm6, hL6⟩ | ⟨hm6, hL6⟩
  · rw [if_pos hm6, if_pos hm6, show (6 : Nat) + 6 = 12 from rfl] at hzero
    rw [if_pos (show 1 < (sown b m).getD (landing b m) 0 ∧
        (sown b m).getD (landing b m) 0 < 4 from by omega),
      if_pos (show m < 6 ∧ 5 < landing b m from ⟨hm6, hL6⟩),
      if_neg (show ¬ slice (harvestLoop 12 (harvester (landing b m)) (sown b m))
          6 12 ≠ List.replicate 6 0 from fun hne => hne hzero)]
  · have hm6' : ¬ m < 6 := by omega
    rw [if_neg hm6', if_neg hm6', show (0 : Nat) + 6 = 6 from rfl] at hzero
    rw [if_pos (show 1 < (sown b m).getD (landing b m) 0 ∧
        (sown b m).getD (landing b m) 0 < 4 from by omega),
      if_neg (show ¬ (m < 6 ∧ 5 < landing b m) from by omega),
      if_pos (show 5 < m ∧ landing b m < 6 from ⟨hm6, hL6⟩),
      if_neg (show ¬ slice (harvestLoop 13 (harvester (landing b m)) (sown b m))
          0 6 ≠ List.replicate 6 0 from fun hne => hne hzero)]

/-- Witness for C2: SOUTH sows the single seed of house 5 into NORTH's
only occupied house; gathering it would empty NORTH's row. -/
theorem claim_C2_witness :
    compute_board [0, 0, 0, 0, 0, 1, 1, 0, 0, 0, 0, 0, 0, 0] 5 =
        some (sown [0, 0, 0, 0, 0, 1, 1, 0, 0, 0, 0, 0, 0, 0] 5) ∧
      (sown [0, 0, 0, 0, 0, 1, 1, 0, 0, 0, 0, 0, 0, 0] 5).getD 12 0 =
        ([0, 0, 0, 0, 0, 1, 1, 0, 0, 0, 0, 0, 0, 0] : List Nat).getD 12 0 ∧
      (sown [0, 0, 0, 0, 0, 1, 1, 0, 0, 0, 0, 0, 0, 0] 5).getD 13 0 =
        ([0, 0, 0, 0, 0, 1, 1, 0, 0, 0, 0, 0, 0, 0] : List Nat).getD 13 0 :=
  claim_C2 [0, 0, 0, 0, 0, 1, 1, 0, 0, 0, 0, 0, 0, 0] 5 (by decide) (by decide)
    (by decide) (by decide) (by decide) (by decide) (by decide)

/-- Claim C3 as stated is false: from
`b = (0,0,0,0,0,1, 1,0,0,0,0,0, 0,0)` the move from house 5 would zero
NORTH's entire row, so the capture is a Grand Slam and is annulled;
house 6 keeps its two seeds and SOUTH's store stays 0. -/
theorem claim_C3_counterexample :
    ¬ ∃ r, compute_board [0, 0, 0, 0, 0, 1, 1, 0, 0, 0, 0, 0, 0, 0] 5 = some r ∧
      (∀ i, i < 12 → r.getD i 0 = 0) ∧ r.getD 12 0 = 2 := by
  rintro ⟨r, hr, hz, _⟩
  rw [show compute_board [0, 0, 0, 0, 0, 1, 1, 0, 0, 0, 0, 0, 0, 0] 5 =
      some [0, 0, 0, 0, 0, 0, 2, 0, 0, 0, 0, 0, 0, 0] from by decide] at hr
  have hr' : r = [0, 0, 0, 0, 0, 0, 2, 0, 0, 0, 0, 0, 0, 0] :=
    (Option.some_inj.1 hr).symm
  subst hr'
  exact absurd (hz 6 (by omega)) (by decide)

/-- Claim C3 amended: the move is a Grand Slam, so `compute_board`
returns the purely sown board — house 6 holds 2 seeds, everything else
(both stores included) is 0. -/
theorem claim_C3_amended :
    compute_board [0, 0, 0, 0, 0, 1, 1, 0, 0, 0, 0, 0, 0, 0] 5 =
      some [0, 0, 0, 0, 0, 0, 2, 0, 0, 0, 0, 0, 0, 0] := by decide

/-- Claim C5 as stated is false: the second disjunct of the
capture-disposition expression tests the seed count `board[move]`, not
the move index, and is reachable — on this 48-seed board, removing it
changes `is_capture`. -/
theorem claim_C5_counterexample :
    ([17, 0, 0, 0, 0, 0, 1, 0, 0, 0, 0, 0, 30, 0] : List Nat).sum = 48 ∧
    is_capture [17, 0, 0, 0, 0, 0, 1, 0, 0, 0, 0, 0, 30, 0] 0 = true ∧
    is_capture_dropSecond [17, 0, 0, 0, 0, 0, 1, 0, 0, 0, 0, 0, 30, 0] 0 = false := by
  decide

/-- Claim C5 amended: the second disjunct compares `board[move]` (the
seed count) with 11 and 23; whenever the seed count is outside 12..22 the
disjunct cannot fire, and removing it does not change `is_capture`. -/
theorem claim_C5_amended (b : List Nat) (m : Nat)
    (h : ¬ (11 < b.getD m 0 ∧ b.getD m 0 < 23)) :
    is_capture b m = is_capture_dropSecond b m := by
  unfold is_capture is_capture_dropSecond
  cases hre : reaperEntry m (b.getD m 0) with
  | none => rfl
  | some lp =>
    obtain ⟨last, posns⟩ := lp
    have hfalse : (decide (11 < b.getD m 0) && decide (b.getD m 0 < 23)
        && decide (b.getD last 0 = 1)) = false := by
      rcases Nat.lt_or_ge 11 (b.getD m 0) with h1 | h1
      · have h2 : decide (b.getD m 0 < 23) = false := by
          rw [decide_eq_false_iff_not]
          exact fun hc => h ⟨h1, hc⟩
        rw [h2, Bool.and_false, Bool.false_and]
      · have h2 : decide (11 < b.getD m 0) = false := by
          rw [decide_eq_false_iff_not]
          omega
        rw [h2, Bool.false_and, Bool.false_and]
    show (if 2 < b.getD last 0 then false
        else if (xor (decide (b.getD last 0 = 0)) (decide (b.getD m 0 < 12))
          || (decide (11 < b.getD m 0) && decide (b.getD m 0 < 23)
              && decide (b.getD last 0 = 1))) then
          (if m < 6 then (if slice b 6 12 ∈ posns then false else true)
           else (if slice b 0 6 ∈ posns then false else true))
        else false) =
      (if 2 < b.getD last 0 then false
        else if (xor (decide (b.getD last 0 = 0)) (decide (b.getD m 0 < 12))) then
          (if m < 6 then (if slice b 6 12 ∈ posns then false else true)
           else (if slice b 0 6 ∈ posns then false else true))
        else false)
    rw [hfalse, Bool.or_false]

/-- Witness for the amended C5: the opening move of the initial board. -/
theorem claim_C5_amended_witness :
    ¬ (11 < (get_initial_board : List Nat).getD 0 0 ∧
        (get_initial_board : List Nat).getD 0 0 < 23) ∧
      is_capture get_initial_board 0 = is_capture_dropSecond get_initial_board 0 :=
  ⟨by decide, claim_C5_amended get_initial_board 0 (by decide)⟩

/-- Claim C6: `get_final_board` returns the board unchanged when a store
exceeds 24 or both stores hold exactly 24; otherwise it sweeps each row
into its owner's store and empties all twelve houses. -/
theorem claim_C6 (b : List Nat) :
    get_final_board b =
      (if 24 < b.getD 12 0 ∨ 24 < b.getD 13 0 ∨
          (b.getD 12 0 = 24 ∧ b.getD 13 0 = 24)
       then b
       else List.replicate 12 0 ++
         [b.getD 12 0 + (slice b 0 6).sum, b.getD 13 0 + (slice b 6 12).sum]) := by
  unfold get_final_board
  by_cases h1 : 24 < b.getD 12 0 ∨ 24 < b.getD 13 0
  · rw [if_pos h1, if_pos (by tauto)]
  · rw [if_neg h1]
    by_cases h2 : b.getD 12 0 = 24 ∧ b.getD 13 0 = 24
    · rw [if_pos h2, if_pos (by tauto)]
    · rw [if_neg h2, if_neg (by tauto)]

/-- Claim C7: a position already on the line of play is terminal for the
search — with the abort flag unset it immediately returns
`turn * get_final_score board`, makes no recursive call, and leaves the
line of play unchanged. -/
theorem claim_C7 (board : List Nat) (turn : Int) (alpha beta : Int)
    (depth : Nat) (line : List Pos) (hmem : (board, turn) ∈ line) :
    search false depth board turn alpha beta line =
      (turn * get_final_score board, line, 0) := by
  unfold search
  rw [if_neg (by decide), if_pos (Or.inr hmem)]

/-- Witness for C7: the initial position already recorded on the line. -/
theorem claim_C7_witness :
    (get_initial_board, SOUTH) ∈ [((get_initial_board : List Nat), SOUTH)] ∧
      search false 4 get_initial_board SOUTH (-1000) 1000
          [((get_initial_board : List Nat), SOUTH)] =
        (SOUTH * get_final_score get_initial_board,
          [((get_initial_board : List Nat), SOUTH)], 0) :=
  ⟨List.mem_singleton.2 rfl,
    claim_C7 get_initial_board SOUTH (-1000) 1000 4 _ (List.mem_singleton.2 rfl)⟩

/-- Claim C8: board-notation round trip — for a 14-entry board whose
entries are at most 49 and either side to move,
`to_position (to_board_notation b t)` returns exactly `(b, t)`. -/
theorem claim_C8 (b : List Nat) (t : Int) (hlen : b.length = 14)
    (hb : ∀ x ∈ b, x ≤ 49) (ht : t = SOUTH ∨ t = NORTH) :
    to_position (to_board_notn b t) = some (b, t) := by
  unfold to_position to_board_notn
  rcases ht with rfl | rfl
  · rw [if_pos rfl, show (14 : Nat) = b.length from hlen.symm,
      parseGroups_natStr b hb 'S']
    rfl
  · rw [if_neg (by decide), show (14 : Nat) = b.length from hlen.symm,
      parseGroups_natStr b hb 'N']
    rfl

/-- Witness for C8: the initial board with SOUTH to move. -/
theorem claim_C8_witness :
    to_position (to_board_notn get_initial_board SOUTH) =
      some ((get_initial_board : List Nat), SOUTH) :=
  claim_C8 get_initial_board SOUTH (by decide) (by decide) (Or.inl rfl)

/-- Claim C9 is contradicted by the code: in the moves pattern the `$`
anchor applies only to the lowercase-first alternative, and `re.match`
accepts a prefix match, so the invalid sequence `"AA"` raises no error
and is converted to `(0, 0)`. -/
theorem claim_C9_bug : to_moves ['A', 'A'] = some [0, 0] := by decide

/-- Claim C10: `compute_board b m` is a `NameError` (modelled `none`)
when house `m` is empty, and totally returns a 14-entry board whenever
house `m` holds at least one seed. -/
theorem claim_C10 (b : List Nat) (m : Nat) (hm : m < 12)
    (hlen : b.length = 14) :
    (b.getD m 0 = 0 → compute_board b m = none) ∧
    (1 ≤ b.getD m 0 → ∃ b', compute_board b m = some b' ∧ b'.length = 14) := by
  exact ⟨compute_board_of_zero b m, compute_board_total b m hm hlen⟩

/-- Witness for C10: the initial board, house 0 (4 seeds) — and its
store house 12 is not a legal source, but house 0 shows totality. -/
theorem claim_C10_witness :
    (([0, 0, 0, 0, 0, 1, 1, 0, 0, 0, 0, 0, 0, 0] : List Nat).getD 0 0 = 0 →
      compute_board [0, 0, 0, 0, 0, 1, 1, 0, 0, 0, 0, 0, 0, 0] 0 = none) ∧
    (1 ≤ ([0, 0, 0, 0, 0, 1, 1, 0, 0, 0, 0, 0, 0, 0] : List Nat).getD 0 0 →
      ∃ b', compute_board [0, 0, 0, 0, 0, 1, 1, 0, 0, 0, 0, 0, 0, 0] 0 = some b' ∧
        b'.length = 14) :=
  claim_C10 [0, 0, 0, 0, 0, 1, 1, 0, 0, 0, 0, 0, 0, 0] 0 (by decide) (by decide)

end Oware
